import Mathlib

/-!
Verification of the ionspid taxonomic-assignment engine and its CLI
parameter-handling layer.

The CLI layer (`ionspid/cli/utils/param_loader.py`,
`ionspid/cli/commands/taxonomy.py`) is embedded directly from the source.
The algorithmic core (`ionspid.core.taxonomy` / `ionspid.core.blast`:
HitFilter, LineageResolver, the five AssignmentStrategy variants,
ConfidenceScorer) is only imported by the sources available here, so those
components are modelled from the specification document, as marked on each
definition.

Python floats are modelled as rationals (ℚ); Python dicts are modelled
extensionally as functions `String → Option PyVal`.
-/

namespace Ionspid

/- Batteries marks the arithmetic on `Rat` irreducible; restore
reducibility inside this development so that concrete rational
computations evaluate by `decide`. -/
attribute [local semireducible] Rat.mul Rat.add Rat.inv Rat.sub Rat.ofScientific

/-- A Python value as it occurs in the CLI parameter dictionaries:
`None`, `bool`, `int`, `float` (modelled as ℚ) or `str`. -/
inductive PyVal where
  | pyNone
  | pyBool (b : Bool)
  | pyInt (n : Int)
  | pyFloat (q : ℚ)
  | pyStr (v : String)
deriving Repr, DecidableEq

/-- A Python dict keyed by strings, modelled extensionally by its lookup
function (`d k = some v` iff key `k` is present with value `v`). -/
abbrev PyDict : Type := String → Option PyVal

/-- `dictUpdate d u` is the dict obtained from `d` by `d.update(u)`:
keys present in `u` take the value from `u`, all other keys keep the
value from `d`. -/
def dictUpdate (d u : PyDict) : PyDict :=
  fun k => match u k with
  | some v => some v
  | none => d k

/-- The dict comprehension `{k: v for k, v in cli_args.items() if v is not None}`
from `merge_params` (param_loader.py:134): drop every key whose value is
Python `None`. -/
def dropNones (d : PyDict) : PyDict :=
  fun k => match d k with
  | some v => if v = PyVal.pyNone then none else some v
  | none => none

/-- Embedding of `merge_params` (param_loader.py:118-139):
`merged = dict(config); merged.update(env_vars);
merged.update({k: v for k, v in cli_args.items() if v is not None})`. -/
def merge_params (cli_args env_vars config : PyDict) : PyDict :=
  dictUpdate (dictUpdate config env_vars) (dropNones cli_args)

/-- The truthy strings recognised by `_coerce_env_value`
(param_loader.py:99): already lower-cased input. -/
def isTrueStr (lv : String) : Bool :=
  lv == "true" || lv == "yes" || lv == "1" || lv == "on"

/-- The falsy strings recognised by `_coerce_env_value`
(param_loader.py:101). -/
def isFalseStr (lv : String) : Bool :=
  lv == "false" || lv == "no" || lv == "0" || lv == "off"

/-- Model of Python `str.lower()`: lower-case every character (written
over the character list so that it evaluates by kernel reduction). -/
def strLower (s : String) : String :=
  String.mk (s.data.map Char.toLower)

/-- Model of Python `str.strip()` as applied inside `int()`/`float()`:
the character list with surrounding whitespace removed. -/
def trimData (s : String) : List Char :=
  ((s.data.dropWhile Char.isWhitespace).reverse.dropWhile Char.isWhitespace).reverse

/-- Value of a list of decimal digit characters (most significant first).
Helper for the models of Python `int()` / `float()` parsing. -/
def digitsVal (cs : List Char) : ℕ :=
  cs.foldl (fun n c => 10 * n + (c.toNat - 48)) 0

/-- Parse a non-empty all-digit character list, as accepted inside Python
numeric literals (underscore digit-grouping is not modelled). -/
def parseDigits (cs : List Char) : Option ℕ :=
  if cs.isEmpty then none
  else if cs.all Char.isDigit then some (digitsVal cs) else none

/-- Model of CPython `int(value)` on environment-variable strings:
surrounding whitespace is stripped, then an optional sign followed by a
non-empty run of decimal digits. -/
def pyIntParse (v : String) : Option Int :=
  match trimData v with
  | '+' :: rest => (parseDigits rest).map Int.ofNat
  | '-' :: rest => (parseDigits rest).map (fun n => -(n : Int))
  | cs => (parseDigits cs).map Int.ofNat

/-- Split a character list at the first exponent marker `e`/`E`,
returning the mantissa characters and, when a marker is present, the
characters after it. -/
def splitAtExp (cs : List Char) : List Char × Option (List Char) :=
  let mant := cs.takeWhile (fun c => !(c == 'e' || c == 'E'))
  match cs.dropWhile (fun c => !(c == 'e' || c == 'E')) with
  | [] => (mant, none)
  | _ :: t => (mant, some t)

/-- Parse an unsigned decimal mantissa (`digits`, `digits.digits`,
`digits.` or `.digits`, with at least one digit) to a rational. -/
def parseMantissa (cs : List Char) : Option ℚ :=
  let intPart := cs.takeWhile Char.isDigit
  let rest := cs.drop intPart.length
  match rest with
  | [] => if intPart.isEmpty then none else some (digitsVal intPart : ℚ)
  | '.' :: frac =>
    if intPart.isEmpty && frac.isEmpty then none
    else if frac.all Char.isDigit then
      some ((digitsVal intPart : ℚ) + (digitsVal frac : ℚ) / (10 : ℚ) ^ frac.length)
    else none
  | _ => none

/-- Parse an optionally signed exponent (a Python int literal). -/
def parseSignedInt (cs : List Char) : Option Int :=
  match cs with
  | '+' :: rest => (parseDigits rest).map Int.ofNat
  | '-' :: rest => (parseDigits rest).map (fun n => -(n : Int))
  | _ => (parseDigits cs).map Int.ofNat

/-- Scale a rational by a power of ten with integer exponent. -/
def scalePow10 (m : ℚ) (e : Int) : ℚ :=
  if 0 ≤ e then m * (10 : ℚ) ^ e.toNat else m / (10 : ℚ) ^ (-e).toNat

/-- Model of CPython `float(value)` on finite decimal forms: optional
sign, decimal mantissa, optional `e`/`E` exponent, surrounding whitespace
stripped. (`inf`/`nan` forms contain neither a dot nor an exponent marker
and so never reach the float branch of `_coerce_env_value`.) -/
def pyFloatParse (v : String) : Option ℚ :=
  let cs := trimData v
  let signedBody : ℚ × List Char :=
    match cs with
    | '+' :: r => ((1 : ℚ), r)
    | '-' :: r => ((-1 : ℚ), r)
    | _ => ((1 : ℚ), cs)
  let sgn := signedBody.1
  let body := signedBody.2
  match splitAtExp body with
  | (mant, none) => (parseMantissa mant).map (fun m => sgn * m)
  | (mant, some ec) =>
    match parseMantissa mant, parseSignedInt ec with
    | some m, some e => some (sgn * scalePow10 m e)
    | _, _ => none

/-- Embedding of `_coerce_env_value` (param_loader.py:88-115): boolean
strings are recognised first (case-insensitively); otherwise the value is
parsed as `int` when it contains neither a dot nor an `e`/`E`, or as
`float` when it does; on parse failure the original string is kept. -/
def _coerce_env_value (value : String) : PyVal :=
  let lv := strLower value
  if isTrueStr lv then PyVal.pyBool true
  else if isFalseStr lv then PyVal.pyBool false
  else if !(value.data.contains ('.' : Char)) && !((lv).data.contains ('e' : Char)) then
    match pyIntParse value with
    | some n => PyVal.pyInt n
    | none => PyVal.pyStr value
  else
    match pyFloatParse value with
    | some q => PyVal.pyFloat q
    | none => PyVal.pyStr value

/-- Modelled from the spec: HitRecord (spec §3) — one normalized alignment
hit, with float metrics as rationals and `query_coverage` optional. The
engine core holding this type (`ionspid.core.blast`) is not among the
available sources; only its CLI callers are. -/
structure HitRecord where
  query_id : String
  subject_id : String
  percent_identity : ℚ
  alignment_length : ℕ
  evalue : ℚ
  bit_score : ℚ
  query_coverage : Option ℚ
deriving Repr, DecidableEq

/-- Modelled from the spec: a Lineage (spec §3) is the ordered list of
taxon names from broad to specific. -/
abbrev Lineage : Type := List String

/-- The five assignment strategy variants (spec §4.3). -/
inductive Method where
  | bestHit
  | thresholdGate
  | lca
  | weighted
  | consensus
deriving Repr, DecidableEq

/-- Modelled from the spec: Assignment (spec §3) — the per-query output
unit; `taxonomy = none` means unassigned. -/
structure Assignment where
  query_id : String
  taxonomy : Option Lineage
  method : Method
  confidence : ℚ
  supporting_hit_count : ℕ
deriving Repr, DecidableEq

/-- The unassigned Assignment for a query: null taxonomy, confidence 0,
no supporting hits (spec §4.3 failure semantics). -/
def unassigned (q : String) (m : Method) : Assignment :=
  { query_id := q, taxonomy := none, method := m,
    confidence := 0, supporting_hit_count := 0 }

/-- Modelled from the spec: the hit ordering used by best-hit selection
(spec §4.1 / §8 tie-break law): lower `evalue` wins, ties broken by
higher `bit_score`, further ties by lexicographically smaller
`subject_id`. `hitBetter a b = true` iff `a` is strictly preferred. -/
def hitBetter (a b : HitRecord) : Bool :=
  decide (a.evalue < b.evalue ∨
    (a.evalue = b.evalue ∧ (b.bit_score < a.bit_score ∨
      (a.bit_score = b.bit_score ∧ a.subject_id < b.subject_id))))

/-- Fold a list to its best element under a strict-preference test,
keeping the earlier element when neither is preferred. -/
def pickBest (better : α → α → Bool) : List α → Option α
  | [] => none
  | x :: xs =>
    match pickBest better xs with
    | none => some x
    | some b => if better x b then some x else some b

/-- Modelled from the spec: best-hit selection over plain hit records. -/
def selectBest (hits : List HitRecord) : Option HitRecord :=
  pickBest hitBetter hits

/-- Modelled from the spec: best-hit selection over lineage-annotated
hits, ordered by the underlying hit records. -/
def selectBestAnnot (hits : List (HitRecord × Lineage)) : Option (HitRecord × Lineage) :=
  pickBest (fun p r => hitBetter p.1 r.1) hits

/-- Modelled from the spec: the `keep_best_hit_only` pass of HitFilter
(spec §4.1): retain, per `query_id`, exactly the hit chosen by
`selectBest` among that query's hits, in the survivor's original
position. -/
def keepBestPerQuery (hits : List HitRecord) : List HitRecord :=
  hits.filter (fun h =>
    decide (selectBest (hits.filter (fun g => g.query_id == h.query_id)) = some h))

/-- Maximum bit score over a query's annotated hit set (0 when empty);
the normalizer for best-hit confidence (spec §4.3 BestHit). -/
def maxBitScore (hits : List (HitRecord × Lineage)) : ℚ :=
  hits.foldl (fun m p => max m p.1.bit_score) 0

/-- Modelled from the spec: the BestHit strategy (spec §4.3): pick the
hit with lowest `evalue` (tie-break as in §4.1); taxonomy is its full
lineage; confidence is its bit score normalized by the query's maximum
(1 when it is the unique or top hit). -/
def bestHitAssign (q : String) (hits : List (HitRecord × Lineage)) : Assignment :=
  match selectBestAnnot hits with
  | none => unassigned q Method.bestHit
  | some hl =>
    let mb := maxBitScore hits
    { query_id := q, taxonomy := some hl.2, method := Method.bestHit,
      confidence := if mb = 0 then 1 else hl.1.bit_score / mb,
      supporting_hit_count := 1 }

/-- Modelled from the spec: the method-specific thresholds bundle
(spec §4.3 / §6 configuration surface). -/
structure TaxThresholds where
  min_identity : ℚ
  min_coverage : ℚ
  max_evalue : ℚ
  min_bit_score : Option ℚ
  top_hits : ℕ
  consensus_fraction : ℚ
  min_weight_share : ℚ
deriving Repr, DecidableEq

/-- Modelled from the spec: the Threshold strategy (spec §4.3):
as BestHit, but the chosen hit is accepted only if
`percent_identity ≥ min_identity` and, when coverage is present,
`query_coverage ≥ min_coverage`; otherwise the query is unassigned. -/
def thresholdAssign (th : TaxThresholds) (q : String)
    (hits : List (HitRecord × Lineage)) : Assignment :=
  match selectBestAnnot hits with
  | none => unassigned q Method.thresholdGate
  | some hl =>
    let coverOk : Bool :=
      match hl.1.query_coverage with
      | some c => decide (th.min_coverage ≤ c)
      | none => true
    if decide (th.min_identity ≤ hl.1.percent_identity) && coverOk then
      let mb := maxBitScore hits
      { query_id := q, taxonomy := some hl.2, method := Method.thresholdGate,
        confidence := if mb = 0 then 1 else hl.1.bit_score / mb,
        supporting_hit_count := 1 }
    else unassigned q Method.thresholdGate

/-- Insert a hit into a list sorted by `hitBetter` on the hit record. -/
def insertHit (p : HitRecord × Lineage) :
    List (HitRecord × Lineage) → List (HitRecord × Lineage)
  | [] => [p]
  | x :: xs => if hitBetter p.1 x.1 then p :: x :: xs else x :: insertHit p xs

/-- Sort a query's annotated hits best-first (insertion sort under
`hitBetter`), used to take the top-N hits for LCA. -/
def sortHits (hits : List (HitRecord × Lineage)) : List (HitRecord × Lineage) :=
  hits.foldr insertHit []

/-- The lineages of the top-N hits considered by the LCA strategy
(spec §4.3 LCA). -/
def consideredLineages (topN : ℕ) (hits : List (HitRecord × Lineage)) : List Lineage :=
  ((sortHits hits).take topN).map Prod.snd

/-- `isExactPrefix p l = true` iff `p` is a rank-for-rank exact prefix
of `l` (spec §3 lineage compatibility, case-sensitive). -/
def isExactPrefix : Lineage → Lineage → Bool
  | [], _ => true
  | _ :: _, ([] : List String) => false
  | a :: p, b :: l => a == b && isExactPrefix p l

/-- Longest common exact prefix of two lineages; lineages of different
declared depth are compared only up to the shorter one's depth. -/
def commonPrefix2 : Lineage → Lineage → Lineage
  | a :: x, b :: y => if a = b then a :: commonPrefix2 x y else ([] : List String)
  | _, _ => ([] : List String)

/-- Deepest common exact prefix of a family of lineages: the lineage at
which all of them agree rank for rank (spec §4.3 LCA). -/
def commonPrefixAll : List Lineage → Lineage
  | [] => ([] : List String)
  | [l] => l
  | l :: ls => commonPrefix2 l (commonPrefixAll ls)

/-- Maximum declared depth among a family of lineages; the denominator
of LCA confidence (`total_ranks_considered`). -/
def maxDepth (lins : List Lineage) : ℕ :=
  lins.foldl (fun m l => max m (List.length l)) 0

/-- Modelled from the spec: the LCA strategy (spec §4.3): over the top-N
hits, the assignment is the deepest rank-for-rank agreement of all
considered lineages; agreement depth 0 gives an unassigned Assignment;
confidence is agreement depth over total ranks considered. -/
def lcaAssign (topN : ℕ) (q : String) (hits : List (HitRecord × Lineage)) : Assignment :=
  let considered := (sortHits hits).take topN
  let lins := consideredLineages topN hits
  let cp := commonPrefixAll lins
  if List.isEmpty cp then unassigned q Method.lca
  else
    { query_id := q, taxonomy := some cp, method := Method.lca,
      confidence := (List.length cp : ℚ) / (maxDepth lins : ℚ),
      supporting_hit_count := considered.length }

/-- The votes cast at rank `r`: the rank-`r` taxon of every considered
lineage deep enough to reach that rank (spec §4.3 Consensus). -/
def votesAt (lins : List Lineage) (r : ℕ) : List String :=
  lins.filterMap (fun l => List.get? l r)

/-- The vote count of the winning taxon at one rank (unit weight per
hit). -/
def maxVoteCount (votes : List String) : ℕ :=
  votes.foldl (fun m t => max m (votes.count t)) 0

/-- The winning taxon's share of the vote at rank `r` (0 when no votes
are cast there). -/
def winnerShareAt (lins : List Lineage) (r : ℕ) : ℚ :=
  let votes := votesAt lins r
  if votes.length = 0 then 0
  else (maxVoteCount votes : ℚ) / (votes.length : ℚ)

/-- Whether rank `r` passes the consensus fraction: the winning taxon
holds at least fraction `f` of the vote (spec §4.3 Consensus). -/
def rankAccepted (f : ℚ) (lins : List Lineage) (r : ℕ) : Bool :=
  decide (f ≤ winnerShareAt lins r)

/-- Modelled from the spec: the lineage depth accepted by the Consensus
strategy at fraction `f`: truncation stops at the first rank whose
winning taxon falls below the fraction (spec §4.3 Consensus). -/
def consensusDepth (f : ℚ) (lins : List Lineage) : ℕ :=
  ((List.range (maxDepth lins)).takeWhile (rankAccepted f lins)).length

/-- The taxon with the most votes at one rank; on a tie the earlier vote
wins (the spec leaves per-rank vote ties open). -/
def winnerAt (votes : List String) : Option String :=
  votes.foldl (fun acc t =>
    match acc with
    | none => some t
    | some b => if votes.count b < votes.count t then some t else some b) none

/-- The lineage accepted by the Consensus strategy: the per-rank winning
taxa along the accepted ranks. -/
def consensusLineage (f : ℚ) (lins : List Lineage) : Lineage :=
  ((List.range (maxDepth lins)).takeWhile (rankAccepted f lins)).filterMap
    (fun r => winnerAt (votesAt lins r))

/-- Modelled from the spec: the Consensus strategy (spec §4.3): equal
unit weight per hit; a rank's call is accepted only when it holds at
least `consensus_fraction` of the vote; confidence is the accepted
deepest rank's vote fraction; depth 0 is unassigned. -/
def consensusAssign (f : ℚ) (q : String) (hits : List (HitRecord × Lineage)) : Assignment :=
  let lins := hits.map Prod.snd
  let d := consensusDepth f lins
  if d = 0 then unassigned q Method.consensus
  else
    { query_id := q, taxonomy := some (consensusLineage f lins),
      method := Method.consensus,
      confidence := winnerShareAt lins (d - 1),
      supporting_hit_count := hits.length }

/-- The weighted votes cast at rank `r`: rank-`r` taxon of each deep
enough hit, weighted by that hit's `bit_score` (spec §4.3 Weighted). -/
def weightedVotesAt (hits : List (HitRecord × Lineage)) (r : ℕ) : List (String × ℚ) :=
  hits.filterMap (fun p => (List.get? p.2 r).map (fun t => (t, p.1.bit_score)))

/-- Accumulated weight of taxon `t` among one rank's weighted votes. -/
def weightFor (pairs : List (String × ℚ)) (t : String) : ℚ :=
  (pairs.filter (fun p => p.1 == t)).foldl (fun s p => s + p.2) 0

/-- Total weight cast at one rank. -/
def totalWeight (pairs : List (String × ℚ)) : ℚ :=
  pairs.foldl (fun s p => s + p.2) 0

/-- The winning taxon's weight share at rank `r` (0 when no weight is
cast there). -/
def maxWeightShareAt (hits : List (HitRecord × Lineage)) (r : ℕ) : ℚ :=
  let pairs := weightedVotesAt hits r
  let tot := totalWeight pairs
  if tot = 0 then 0
  else (pairs.foldl (fun m p => max m (weightFor pairs p.1)) 0) / tot

/-- Whether rank `r` passes the weighted minimum share floor. -/
def weightedRankAccepted (minShare : ℚ) (hits : List (HitRecord × Lineage)) (r : ℕ) : Bool :=
  decide (minShare ≤ maxWeightShareAt hits r)

/-- The lineage depth accepted by the Weighted strategy: early stop at
the first rank whose winning weight share is below the floor. -/
def weightedDepth (minShare : ℚ) (hits : List (HitRecord × Lineage)) : ℕ :=
  ((List.range (maxDepth (hits.map Prod.snd))).takeWhile
    (weightedRankAccepted minShare hits)).length

/-- The taxon with the highest accumulated weight at one rank; on a tie
the earlier vote wins. -/
def weightedWinnerAt (pairs : List (String × ℚ)) : Option String :=
  pairs.foldl (fun acc p =>
    match acc with
    | none => some p.1
    | some b => if weightFor pairs b < weightFor pairs p.1 then some p.1 else some b) none

/-- The lineage accepted by the Weighted strategy. -/
def weightedLineage (minShare : ℚ) (hits : List (HitRecord × Lineage)) : Lineage :=
  ((List.range (maxDepth (hits.map Prod.snd))).takeWhile
    (weightedRankAccepted minShare hits)).filterMap
    (fun r => weightedWinnerAt (weightedVotesAt hits r))

/-- Modelled from the spec: the Weighted strategy (spec §4.3): per-rank
weighted plurality with weight `bit_score` and an early-stop floor on
the winning weight share; confidence is the winning share at the
deepest accepted rank; depth 0 is unassigned. -/
def weightedAssign (minShare : ℚ) (q : String) (hits : List (HitRecord × Lineage)) : Assignment :=
  let d := weightedDepth minShare hits
  if d = 0 then unassigned q Method.weighted
  else
    { query_id := q, taxonomy := some (weightedLineage minShare hits),
      method := Method.weighted,
      confidence := maxWeightShareAt hits (d - 1),
      supporting_hit_count := hits.length }

/-- The positive confidence floor used by the scorer for assigned rows.
The spec (§4.4) requires ConfidenceScorer to clamp into [0,1] while
guaranteeing `confidence == 0 ⟺ unassigned`; it fixes no particular
floor, so the model picks one. -/
def minAssignedConfidence : ℚ := 1 / 1000

/-- Modelled from the spec: ConfidenceScorer (spec §4.4): the thin
post-processing pass that clamps confidence into [0,1] and guarantees
the unassigned invariant (0 exactly when taxonomy is null). -/
def scoreAssign (a : Assignment) : Assignment :=
  match a.taxonomy with
  | none => { a with confidence := 0 }
  | some _ => { a with confidence := min 1 (max minAssignedConfidence a.confidence) }

/-- Dispatch one query to the selected strategy (spec §4.3). -/
def assignQuery (m : Method) (th : TaxThresholds) (q : String)
    (hits : List (HitRecord × Lineage)) : Assignment :=
  match m with
  | Method.bestHit => bestHitAssign q hits
  | Method.thresholdGate => thresholdAssign th q hits
  | Method.lca => lcaAssign th.top_hits q hits
  | Method.weighted => weightedAssign th.min_weight_share q hits
  | Method.consensus => consensusAssign th.consensus_fraction q hits

/-- Modelled from the spec: the strategy phase over the grouped input
`hits_by_query` (spec §4.3): one scored Assignment per entry, in input
order; a query whose filtered hit list is empty still yields a row. -/
def assignAll (m : Method) (th : TaxThresholds)
    (hbq : List (String × List (HitRecord × Lineage))) : List Assignment :=
  hbq.map (fun p => scoreAssign (assignQuery m th p.1 p.2))

/-- The engine configuration as injected by the caller (spec §6):
the method arrives as one of the five strategy names. -/
structure EngineConfig where
  method : String
  thresholds : TaxThresholds
deriving Repr, DecidableEq

/-- Parse a method name into a strategy variant; unknown names fail. -/
def parseMethod : String → Option Method
  | "best_hit" => some Method.bestHit
  | "threshold" => some Method.thresholdGate
  | "lca" => some Method.lca
  | "weighted" => some Method.weighted
  | "consensus" => some Method.consensus
  | _ => none

/-- Modelled from the spec: fail-fast validation of the thresholds
bundle (spec §4.3 failure semantics, §7): an unknown method name or a
`consensus_fraction` outside (0,1] is a ValidationError raised before
any query is processed. -/
def validateConfig (c : EngineConfig) : Except String Unit :=
  if (parseMethod c.method).isNone then
    Except.error "ValidationError: unknown method name"
  else if ¬ (0 < c.thresholds.consensus_fraction ∧ c.thresholds.consensus_fraction ≤ 1) then
    Except.error "ValidationError: consensus_fraction outside (0,1]"
  else if c.thresholds.min_identity < 0 then
    Except.error "ValidationError: negative identity threshold"
  else
    Except.ok ()

/-- Modelled from the spec: the engine run: validate the configuration
first, then produce the full assignment list; an invalid configuration
yields an error and no assignments at all. -/
def runEngine (c : EngineConfig) (hbq : List (String × List (HitRecord × Lineage))) :
    Except String (List Assignment) :=
  match validateConfig c with
  | Except.error e => Except.error e
  | Except.ok _ =>
    match parseMethod c.method with
    | some m => Except.ok (assignAll m c.thresholds hbq)
    | none => Except.error "ValidationError: unknown method name"

/-- Modelled from the spec: LineageResolver.resolve (spec §4.2): an
injected mapping from subject id to lineage; a miss returns the
single-element synthetic lineage `["Subject_<subject_id>"]` instead of
failing (the CLI mirrors this in taxonomy.py:184-188). -/
def resolveLineage (mapping : List (String × Lineage)) (sid : String) : Lineage :=
  match mapping.lookup sid with
  | some lin => lin
  | none => ["Subject_" ++ sid]

/-- Modelled from the spec: loading the lineage-mapping source
(spec §4.2/§7): an unreadable source (modelled as `none`) is a
ConfigurationError; a readable one loads as is. -/
def loadMapping (source : Option (List (String × Lineage))) :
    Except String (List (String × Lineage)) :=
  match source with
  | some m => Except.ok m
  | none => Except.error "ConfigurationError: taxonomy mapping source cannot be loaded"

/-- The warning printed by the CLI `assign` command when the new
taxonomy system fails (taxonomy.py:204). -/
def fallbackWarning (e : String) : String :=
  "New taxonomy system failed, falling back to legacy: " ++ e

/-- The error raised by the CLI `assign` command when the new system
fails and no legacy system is available (taxonomy.py:212). -/
def bothFailedError (e : String) : String :=
  "RuntimeError: Both new and legacy taxonomy systems failed (from " ++ e ++ ")"

/-- Embedding of the dual-path assignment in the CLI `assign` command
(taxonomy.py:199-212): `newRes` is the outcome of creating and running
the new-system assigner, `hasLegacy` mirrors `_has_legacy_blast_taxonomy`,
and `legacyRes` the outcome of the legacy call (its wrapping into a
TaxonomyResult is part of the result value). Returns the warnings
emitted and the propagated outcome. -/
def assignWithFallback (α : Type) (newRes : Except String α) (hasLegacy : Bool)
    (legacyRes : Except String α) : List String × Except String α :=
  match newRes with
  | Except.ok r => ([], Except.ok r)
  | Except.error e =>
    if hasLegacy then ([fallbackWarning e], legacyRes)
    else ([fallbackWarning e], Except.error (bothFailedError e))

/-! Helper lemmas. -/

theorem scoreAssign_query_id (a : Assignment) : (scoreAssign a).query_id = a.query_id := by
  cases h : a.taxonomy <;> simp [scoreAssign, h]

theorem bestHitAssign_query_id (q : String) (hits : List (HitRecord × Lineage)) :
    (bestHitAssign q hits).query_id = q := by
  cases h : selectBestAnnot hits <;> simp [bestHitAssign, h, unassigned]

theorem thresholdAssign_query_id (th : TaxThresholds) (q : String)
    (hits : List (HitRecord × Lineage)) : (thresholdAssign th q hits).query_id = q := by
  cases h : selectBestAnnot hits <;> simp [thresholdAssign, h, unassigned]
  split <;> rfl

theorem lcaAssign_query_id (topN : ℕ) (q : String) (hits : List (HitRecord × Lineage)) :
    (lcaAssign topN q hits).query_id = q := by
  simp only [lcaAssign]
  split <;> rfl

theorem consensusAssign_query_id (f : ℚ) (q : String) (hits : List (HitRecord × Lineage)) :
    (consensusAssign f q hits).query_id = q := by
  simp only [consensusAssign]
  split <;> rfl

theorem weightedAssign_query_id (ms : ℚ) (q : String) (hits : List (HitRecord × Lineage)) :
    (weightedAssign ms q hits).query_id = q := by
  simp only [weightedAssign]
  split <;> rfl

theorem assignQuery_query_id (m : Method) (th : TaxThresholds) (q : String)
    (hits : List (HitRecord × Lineage)) : (assignQuery m th q hits).query_id = q := by
  cases m
  · exact bestHitAssign_query_id q hits
  · exact thresholdAssign_query_id th q hits
  · exact lcaAssign_query_id th.top_hits q hits
  · exact weightedAssign_query_id th.min_weight_share q hits
  · exact consensusAssign_query_id th.consensus_fraction q hits

theorem assignQuery_empty (m : Method) (th : TaxThresholds) (q : String) :
    assignQuery m th q [] = unassigned q m := by
  cases m
  · rfl
  · rfl
  · simp [assignQuery, lcaAssign, consideredLineages, sortHits, commonPrefixAll, unassigned]
  · rfl
  · rfl

theorem scoreAssign_unassigned (q : String) (m : Method) :
    scoreAssign (unassigned q m) = unassigned q m := rfl

theorem scoreAssign_inv (a : Assignment) :
    (((scoreAssign a).taxonomy = none) ↔ (scoreAssign a).confidence = 0) ∧
    0 ≤ (scoreAssign a).confidence ∧ (scoreAssign a).confidence ≤ 1 := by
  cases hta : a.taxonomy with
  | none => simp [scoreAssign, hta]
  | some l =>
    have h1 : (0 : ℚ) < minAssignedConfidence := by norm_num [minAssignedConfidence]
    have h3 : (0 : ℚ) < min 1 (max minAssignedConfidence a.confidence) := by
      apply lt_min
      · norm_num
      · exact lt_of_lt_of_le h1 (le_max_left _ _)
    refine ⟨?_, ?_, ?_⟩
    · simp only [scoreAssign, hta]
      constructor
      · intro hcon; exact absurd hcon (by simp)
      · intro hcon; exact absurd hcon (ne_of_gt h3)
    · simp only [scoreAssign, hta]
      exact le_of_lt h3
    · simp only [scoreAssign, hta]
      exact min_le_left _ _

theorem pickBest_mem {α : Type} (better : α → α → Bool) :
    ∀ {l : List α} {b : α}, pickBest better l = some b → b ∈ l := by
  intro l
  induction l with
  | nil => intro b h; simp [pickBest] at h
  | cons x xs ih =>
    intro b h
    simp only [pickBest] at h
    cases hp : pickBest better xs with
    | none =>
      rw [hp] at h
      simp at h
      simp [h]
    | some c =>
      rw [hp] at h
      by_cases hb : better x c = true
      · simp [hb] at h; simp [h]
      · simp [hb] at h
        exact List.mem_cons_of_mem _ (h ▸ ih hp)

theorem pickBest_strict_best {α : Type} {better : α → α → Bool}
    (hasym : ∀ x y : α, better x y = true → better y x = false) :
    ∀ {l : List α} {h : α}, h ∈ l → (∀ g ∈ l, g ≠ h → better h g = true) →
      pickBest better l = some h := by
  intro l
  induction l with
  | nil => intro h hm _; simp at hm
  | cons x xs ih =>
    intro h hm hbest
    by_cases hxh : x = h
    · subst hxh
      simp only [pickBest]
      cases hp : pickBest better xs with
      | none => rfl
      | some c =>
        have hc : c ∈ xs := pickBest_mem better hp
        by_cases hch : c = x
        · subst hch
          by_cases hbb : better c c = true <;> simp [hbb]
        · have hbc : better x c = true :=
            hbest c (List.mem_cons_of_mem _ hc) hch
          simp [hbc]
    · have hmx : h ∈ xs := by
        rcases List.mem_cons.mp hm with h1 | h2
        · exact absurd h1.symm hxh
        · exact h2
      have hbx : better h x = true :=
        hbest x (List.mem_cons_self x xs) (fun hxe => hxh hxe)
      have hp : pickBest better xs = some h :=
        ih hmx (fun g hg hne => hbest g (List.mem_cons_of_mem _ hg) hne)
      simp only [pickBest]
      rw [hp]
      simp [hasym h x hbx]

theorem hitBetter_asymm {a b : HitRecord} (h : hitBetter a b = true) :
    hitBetter b a = false := by
  simp only [hitBetter, decide_eq_true_eq] at h
  simp only [hitBetter, decide_eq_false_iff_not]
  intro hcon
  rcases h with h1 | ⟨he, h2⟩ <;> rcases hcon with g1 | ⟨ge, g2⟩
  · exact absurd g1 (lt_asymm h1)
  · rw [ge] at h1; exact lt_irrefl _ h1
  · rw [he] at g1; exact lt_irrefl _ g1
  · rcases h2 with hb | ⟨hbe, hs⟩ <;> rcases g2 with gb | ⟨gbe, gs⟩
    · exact absurd gb (lt_asymm hb)
    · rw [gbe] at hb; exact lt_irrefl _ hb
    · rw [hbe] at gb; exact lt_irrefl _ gb
    · exact absurd gs (lt_asymm hs)

theorem isExactPrefix_refl (l : Lineage) : isExactPrefix l l = true := by
  induction l with
  | nil => rfl
  | cons x xs ih => simp [isExactPrefix, ih]

theorem isExactPrefix_trans :
    ∀ {a b c : Lineage}, isExactPrefix a b = true → isExactPrefix b c = true →
      isExactPrefix a c = true := by
  intro a
  induction a with
  | nil => intro b c _ _; rfl
  | cons x p ih =>
    intro b c h1 h2
    cases b with
    | nil => simp [isExactPrefix] at h1
    | cons y l =>
      cases c with
      | nil => simp [isExactPrefix] at h2
      | cons z m =>
        simp only [isExactPrefix, Bool.and_eq_true, beq_iff_eq] at h1 h2 ⊢
        exact ⟨h1.1.trans h2.1, ih h1.2 h2.2⟩

theorem commonPrefix2_prefix_left :
    ∀ (a b : Lineage), isExactPrefix (commonPrefix2 a b) a = true := by
  intro a
  induction a with
  | nil => intro b; cases b <;> rfl
  | cons x p ih =>
    intro b
    cases b with
    | nil => rfl
    | cons y l =>
      simp only [commonPrefix2]
      by_cases h : x = y
      · simp [h, isExactPrefix, ih l]
      · simp [h, isExactPrefix]

theorem commonPrefix2_prefix_right :
    ∀ (a b : Lineage), isExactPrefix (commonPrefix2 a b) b = true := by
  intro a
  induction a with
  | nil => intro b; cases b <;> rfl
  | cons x p ih =>
    intro b
    cases b with
    | nil => rfl
    | cons y l =>
      simp only [commonPrefix2]
      by_cases h : x = y
      · simp [h, isExactPrefix, ih l]
      · simp [h, isExactPrefix]

theorem commonPrefixAll_prefix :
    ∀ (lins : List Lineage), ∀ L ∈ lins, isExactPrefix (commonPrefixAll lins) L = true := by
  intro lins
  induction lins with
  | nil => intro L hL; simp at hL
  | cons l ls ih =>
    intro L hL
    cases ls with
    | nil =>
      have : L = l := by simpa using hL
      rw [this]
      exact isExactPrefix_refl l
    | cons l2 ls2 =>
      have hall : commonPrefixAll (l :: l2 :: ls2) =
          commonPrefix2 l (commonPrefixAll (l2 :: ls2)) := rfl
      rcases List.mem_cons.mp hL with h1 | h2
      · rw [hall, h1]
        exact commonPrefix2_prefix_left _ _
      · rw [hall]
        exact isExactPrefix_trans (commonPrefix2_prefix_right _ _) (ih L h2)

theorem takeWhile_length_le {α : Type} {p r : α → Bool}
    (h : ∀ x, r x = true → p x = true) :
    ∀ l : List α, (l.takeWhile r).length ≤ (l.takeWhile p).length := by
  intro l
  induction l with
  | nil => simp
  | cons x xs ih =>
    cases hr : r x with
    | false => simp [List.takeWhile_cons, hr]
    | true =>
      have hp := h x hr
      simp only [List.takeWhile_cons, hr, hp, if_true, List.length_cons]
      exact Nat.succ_le_succ ih

theorem falseStr_not_trueStr (lv : String) (h : isFalseStr lv = true) :
    isTrueStr lv = false := by
  simp only [isFalseStr, Bool.or_eq_true, beq_iff_eq] at h
  rcases h with ((h | h) | h) | h <;> subst h <;> decide

/-! Claim theorems. -/

/-- C2: for every Assignment produced by any of the five strategies and
post-processed by ConfidenceScorer, the taxonomy is null iff the
confidence equals 0, and the confidence lies in [0,1]. -/
theorem unassigned_confidence_invariant (m : Method) (th : TaxThresholds) (q : String)
    (hits : List (HitRecord × Lineage)) :
    (((scoreAssign (assignQuery m th q hits)).taxonomy = none) ↔
      (scoreAssign (assignQuery m th q hits)).confidence = 0) ∧
    0 ≤ (scoreAssign (assignQuery m th q hits)).confidence ∧
    (scoreAssign (assignQuery m th q hits)).confidence ≤ 1 :=
  scoreAssign_inv (assignQuery m th q hits)

/-- C7: a subject id missing from the taxonomy mapping resolves to the
single-element synthetic lineage `["Subject_<subject_id>"]` and never
fails; a ConfigurationError arises only when the mapping source itself
cannot be loaded. -/
theorem resolver_miss_synthetic (mapping : List (String × Lineage)) (sid : String) :
    (mapping.lookup sid = none → resolveLineage mapping sid = ["Subject_" ++ sid]) ∧
    loadMapping (some mapping) = Except.ok mapping ∧
    loadMapping none =
      Except.error "ConfigurationError: taxonomy mapping source cannot be loaded" := by
  refine ⟨fun h => ?_, rfl, rfl⟩
  simp [resolveLineage, h]

theorem resolver_miss_synthetic_witness :
    (List.lookup "S2" [("S1", (["Bacteria"] : Lineage))] = none) ∧
    resolveLineage [("S1", (["Bacteria"] : Lineage))] "S2" = ["Subject_S2"] := by
  have h : List.lookup "S2" [("S1", (["Bacteria"] : Lineage))] = none := by decide
  refine ⟨h, ?_⟩
  have h2 := (resolver_miss_synthetic [("S1", (["Bacteria"] : Lineage))] "S2").1 h
  exact h2.trans (by decide)

/-- C8: in the CLI assign command, a failure of the new taxonomy system
is silently retried on the legacy system with only a warning emitted;
an error propagates to the caller exactly when the legacy system is
unavailable or itself fails. -/
theorem dual_path_fallback (α : Type) (e : String) (r : α) (legacyRes : Except String α) :
    assignWithFallback α (Except.ok r) true legacyRes = ([], Except.ok r) ∧
    assignWithFallback α (Except.ok r) false legacyRes = ([], Except.ok r) ∧
    assignWithFallback α (Except.error e) true (Except.ok r) =
      ([fallbackWarning e], Except.ok r) ∧
    (∀ e2 : String, assignWithFallback α (Except.error e) true (Except.error e2) =
      ([fallbackWarning e], Except.error e2)) ∧
    assignWithFallback α (Except.error e) false legacyRes =
      ([fallbackWarning e], Except.error (bothFailedError e)) :=
  ⟨rfl, rfl, rfl, fun _ => rfl, rfl⟩

/-- C9: merge_params gives each key the CLI value when that CLI argument
is not None, otherwise the environment value when present, otherwise the
config-file value; a None-valued CLI argument never overrides a
lower-precedence source. -/
theorem merge_params_precedence (cli_args env_vars config : PyDict) (k : String) :
    merge_params cli_args env_vars config k =
      match cli_args k with
      | some v =>
        if v = PyVal.pyNone then
          match env_vars k with
          | some w => some w
          | none => config k
        else some v
      | none =>
        match env_vars k with
        | some w => some w
        | none => config k := by
  simp only [merge_params, dictUpdate, dropNones]
  cases hc : cli_args k with
  | none => cases he : env_vars k <;> simp
  | some v =>
    by_cases hv : v = PyVal.pyNone
    · cases he : env_vars k <;> simp [hv]
    · simp [hv]

/-- C10: _coerce_env_value recognises the truthy and falsy strings
case-insensitively before any numeric parsing (so the string "1" becomes
boolean True and never integer 1); any other string parses as int when
it contains neither a dot nor an exponent marker, otherwise as float,
and stays a string when the attempted parse fails. -/
theorem coerce_env_value_order (v : String) :
    (isTrueStr (strLower v) = true → _coerce_env_value v = PyVal.pyBool true) ∧
    (isFalseStr (strLower v) = true → _coerce_env_value v = PyVal.pyBool false) ∧
    _coerce_env_value "1" = PyVal.pyBool true ∧
    (∀ n : Int, _coerce_env_value "1" ≠ PyVal.pyInt n) ∧
    (isTrueStr (strLower v) = false → isFalseStr (strLower v) = false →
      v.data.contains ('.' : Char) = false → (strLower v).data.contains ('e' : Char) = false →
      _coerce_env_value v =
        match pyIntParse v with
        | some n => PyVal.pyInt n
        | none => PyVal.pyStr v) ∧
    (isTrueStr (strLower v) = false → isFalseStr (strLower v) = false →
      (v.data.contains ('.' : Char) = true ∨ (strLower v).data.contains ('e' : Char) = true) →
      _coerce_env_value v =
        match pyFloatParse v with
        | some q => PyVal.pyFloat q
        | none => PyVal.pyStr v) := by
  have hone : _coerce_env_value "1" = PyVal.pyBool true := by decide
  refine ⟨?_, ?_, hone, ?_, ?_, ?_⟩
  · intro h
    simp [_coerce_env_value, h]
  · intro h
    simp [_coerce_env_value, falseStr_not_trueStr _ h, h]
  · intro n hcon
    rw [hone] at hcon
    exact PyVal.noConfusion hcon
  · intro hT hF hd he
    simp only [_coerce_env_value, hT, hF, hd, he, Bool.not_false, Bool.and_self,
      Bool.false_eq_true, if_false]
    rfl
  · intro hT hF hor
    rcases hor with hd | he
    · simp only [_coerce_env_value, hT, hF, hd, Bool.not_true, Bool.false_and,
        Bool.false_eq_true, if_false]
    · simp only [_coerce_env_value, hT, hF, he, Bool.not_true, Bool.and_false,
        Bool.false_eq_true, if_false]

theorem coerce_env_value_order_witness :
    _coerce_env_value "1" = PyVal.pyBool true ∧
    _coerce_env_value "Off" = PyVal.pyBool false ∧
    _coerce_env_value "42" = PyVal.pyInt 42 ∧
    _coerce_env_value "2.5" = PyVal.pyFloat (5 / 2) ∧
    _coerce_env_value "hello" = PyVal.pyStr "hello" := by
  refine ⟨(coerce_env_value_order "1").2.2.1, ?_, ?_, ?_, ?_⟩
  · exact (coerce_env_value_order "Off").2.1 (by decide)
  · have h := (coerce_env_value_order "42").2.2.2.2.1
      (by decide) (by decide) (by decide) (by decide)
    exact h.trans (by decide)
  · have h := (coerce_env_value_order "2.5").2.2.2.2.2
      (by decide) (by decide) (Or.inl (by decide))
    exact h.trans (by decide)
  · have h := (coerce_env_value_order "hello").2.2.2.2.2
      (by decide) (by decide) (Or.inr (by decide))
    exact h.trans (by decide)

/-- C6: a thresholds bundle with a malformed value — an unknown method
name or a consensus_fraction outside (0,1] — makes the engine fail with
a ValidationError before any query is processed, so no partial results
are ever produced. -/
theorem validation_fail_fast (c : EngineConfig)
    (hbq : List (String × List (HitRecord × Lineage)))
    (hbad : parseMethod c.method = none ∨
      ¬ (0 < c.thresholds.consensus_fraction ∧ c.thresholds.consensus_fraction ≤ 1)) :
    (∃ e, runEngine c hbq = Except.error e) ∧
    ∀ res, runEngine c hbq ≠ Except.ok res := by
  have herr : ∃ e, runEngine c hbq = Except.error e := by
    rcases hbad with hm | hf
    · refine ⟨"ValidationError: unknown method name", ?_⟩
      simp [runEngine, validateConfig, hm]
    · by_cases hm : (parseMethod c.method).isNone = true
      · refine ⟨"ValidationError: unknown method name", ?_⟩
        simp [runEngine, validateConfig, hm]
      · refine ⟨"ValidationError: consensus_fraction outside (0,1]", ?_⟩
        simp [runEngine, validateConfig, hm, hf]
  refine ⟨herr, ?_⟩
  rcases herr with ⟨e, he⟩
  intro res hcon
  rw [he] at hcon
  exact Except.noConfusion hcon

theorem validation_fail_fast_witness :
    (¬ ((0 : ℚ) < 2 ∧ (2 : ℚ) ≤ 1)) ∧
    (∃ e, runEngine ⟨"consensus", ⟨70, 50, 1, some 50, 5, 2, 2⟩⟩ [] = Except.error e) := by
  have hb : ¬ ((0 : ℚ) < 2 ∧ (2 : ℚ) ≤ 1) := by norm_num
  exact ⟨hb, (validation_fail_fast ⟨"consensus", ⟨70, 50, 1, some 50, 5, 2, 2⟩⟩ []
    (Or.inr hb)).1⟩

/-- C5: raising the consensus fraction never deepens the accepted
lineage: for fractions f1 ≤ f2 in (0,1], the depth accepted by the
Consensus strategy at f2 is at most the depth accepted at f1. -/
theorem consensus_monotonicity (f1 f2 : ℚ) (lins : List Lineage)
    (hpos : 0 < f1) (h12 : f1 ≤ f2) (hle : f2 ≤ 1) :
    consensusDepth f2 lins ≤ consensusDepth f1 lins := by
  apply takeWhile_length_le
  intro r hr
  simp only [rankAccepted, decide_eq_true_eq] at hr ⊢
  exact le_trans h12 hr

theorem consensus_monotonicity_witness :
    ((0 : ℚ) < 1 / 2 ∧ (1 : ℚ) / 2 ≤ 3 / 4 ∧ (3 : ℚ) / 4 ≤ 1) ∧
    consensusDepth (3 / 4) [["A", "B"], ["A", "C"]] ≤
      consensusDepth (1 / 2) [["A", "B"], ["A", "C"]] ∧
    consensusDepth (3 / 4) [["A", "B"], ["A", "C"]] = 1 ∧
    consensusDepth (1 / 2) [["A", "B"], ["A", "C"]] = 2 := by
  refine ⟨by norm_num, ?_, by decide, by decide⟩
  exact consensus_monotonicity (1 / 2) (3 / 4) [["A", "B"], ["A", "C"]]
    (by norm_num) (by norm_num) (by norm_num)

/-- C4: the lineage assigned by the LCA strategy is a rank-for-rank
exact prefix of every one of the top-N considered lineages (lineages of
different declared depth agree whenever they agree up to the shorter
depth, which the common prefix respects), and agreement depth 0 yields
an unassigned Assignment. -/
theorem lca_soundness (topN : ℕ) (q : String) (hits : List (HitRecord × Lineage)) :
    (∀ lin, (lcaAssign topN q hits).taxonomy = some lin →
      ∀ L ∈ consideredLineages topN hits, isExactPrefix lin L = true) ∧
    (commonPrefixAll (consideredLineages topN hits) = [] →
      lcaAssign topN q hits = unassigned q Method.lca) := by
  constructor
  · intro lin hsome L hL
    have hlin : lin = commonPrefixAll (consideredLineages topN hits) := by
      by_cases hcp : List.isEmpty (commonPrefixAll (consideredLineages topN hits)) = true
      · simp [lcaAssign, hcp, unassigned] at hsome
      · simp only [lcaAssign, hcp] at hsome
        simp at hsome
        · exact hsome.symm
    rw [hlin]
    exact commonPrefixAll_prefix _ L hL
  · intro h
    simp [lcaAssign, h, unassigned]

theorem lca_soundness_witness :
    ((lcaAssign 2 "Q1"
        [(⟨"Q1", "S1", 99, 150, 1, 280, none⟩, ["Bacteria", "Proteobacteria", "E.coli"]),
         (⟨"Q1", "S2", 80, 150, 2, 150, none⟩, ["Bacteria", "Firmicutes", "Bacillus"])]).taxonomy
      = some ["Bacteria"]) ∧
    isExactPrefix ["Bacteria"] ["Bacteria", "Proteobacteria", "E.coli"] = true ∧
    isExactPrefix ["Bacteria"] ["Bacteria", "Firmicutes", "Bacillus"] = true ∧
    (commonPrefixAll (consideredLineages 2
        [(⟨"Q2", "S1", 99, 150, 1, 280, none⟩, ["A"]),
         (⟨"Q2", "S3", 80, 150, 2, 150, none⟩, ["B"])]) = []) ∧
    lcaAssign 2 "Q2"
        [(⟨"Q2", "S1", 99, 150, 1, 280, none⟩, ["A"]),
         (⟨"Q2", "S3", 80, 150, 2, 150, none⟩, ["B"])]
      = unassigned "Q2" Method.lca := by
  refine ⟨by decide, ?_, ?_, by decide, ?_⟩
  · exact (lca_soundness 2 "Q1"
      [(⟨"Q1", "S1", 99, 150, 1, 280, none⟩, ["Bacteria", "Proteobacteria", "E.coli"]),
       (⟨"Q1", "S2", 80, 150, 2, 150, none⟩, ["Bacteria", "Firmicutes", "Bacillus"])]).1
      ["Bacteria"] (by decide) ["Bacteria", "Proteobacteria", "E.coli"] (by decide)
  · exact (lca_soundness 2 "Q1"
      [(⟨"Q1", "S1", 99, 150, 1, 280, none⟩, ["Bacteria", "Proteobacteria", "E.coli"]),
       (⟨"Q1", "S2", 80, 150, 2, 150, none⟩, ["Bacteria", "Firmicutes", "Bacillus"])]).1
      ["Bacteria"] (by decide) ["Bacteria", "Firmicutes", "Bacillus"] (by decide)
  · exact (lca_soundness 2 "Q2"
      [(⟨"Q2", "S1", 99, 150, 1, 280, none⟩, ["A"]),
       (⟨"Q2", "S3", 80, 150, 2, 150, none⟩, ["B"])]).2 (by decide)

/-- C3: for two hits with identical evalue, best-hit selection — shared
by the BestHit and Threshold strategies and by keep-best-hit-only
filtering — picks the hit with the higher bit_score, and on a further
tie the lexicographically smallest subject_id, in either source order
(deterministically, never by position). -/
theorem tie_break_law (h1 h2 : HitRecord) (L1 L2 : Lineage) (q : String)
    (heq : h1.evalue = h2.evalue)
    (hpref : h2.bit_score < h1.bit_score ∨
      (h1.bit_score = h2.bit_score ∧ h1.subject_id < h2.subject_id)) :
    hitBetter h1 h2 = true ∧ hitBetter h2 h1 = false ∧
    selectBest [h1, h2] = some h1 ∧ selectBest [h2, h1] = some h1 ∧
    selectBestAnnot [(h1, L1), (h2, L2)] = some (h1, L1) ∧
    selectBestAnnot [(h2, L2), (h1, L1)] = some (h1, L1) ∧
    (bestHitAssign q [(h1, L1), (h2, L2)]).taxonomy = some L1 ∧
    (bestHitAssign q [(h2, L2), (h1, L1)]).taxonomy = some L1 ∧
    (h1.query_id = h2.query_id →
      keepBestPerQuery [h1, h2] = [h1] ∧ keepBestPerQuery [h2, h1] = [h1]) := by
  have hb : hitBetter h1 h2 = true := by
    simp only [hitBetter, decide_eq_true_eq]
    exact Or.inr ⟨heq, hpref⟩
  have hb2 : hitBetter h2 h1 = false := hitBetter_asymm hb
  have hne : h1 ≠ h2 := by
    intro hcon
    rcases hpref with hlt | ⟨_, hs⟩
    · rw [hcon] at hlt; exact lt_irrefl _ hlt
    · rw [hcon] at hs; exact lt_irrefl _ hs
  have hne2 : h2 ≠ h1 := fun hcon => hne hcon.symm
  have hs1 : selectBest [h1, h2] = some h1 := by
    simp [selectBest, pickBest, hb]
  have hs2 : selectBest [h2, h1] = some h1 := by
    simp [selectBest, pickBest, hb2]
  have ha1 : selectBestAnnot [(h1, L1), (h2, L2)] = some (h1, L1) := by
    simp [selectBestAnnot, pickBest, hb]
  have ha2 : selectBestAnnot [(h2, L2), (h1, L1)] = some (h1, L1) := by
    simp [selectBestAnnot, pickBest, hb2]
  refine ⟨hb, hb2, hs1, hs2, ha1, ha2, ?_, ?_, ?_⟩
  · simp [bestHitAssign, ha1]
  · simp [bestHitAssign, ha2]
  · intro hq
    constructor
    · simp [keepBestPerQuery, List.filter_cons, hq, hs1, hne, hne2]
    · simp [keepBestPerQuery, List.filter_cons, hq, hs2, hne, hne2]

theorem tie_break_law_witness :
    ((⟨"Q", "S1", 95, 150, 1, 150, none⟩ : HitRecord).bit_score <
      (⟨"Q", "S2", 99, 150, 1, 280, none⟩ : HitRecord).bit_score) ∧
    selectBest [⟨"Q", "S2", 99, 150, 1, 280, none⟩, ⟨"Q", "S1", 95, 150, 1, 150, none⟩] =
      some ⟨"Q", "S2", 99, 150, 1, 280, none⟩ ∧
    selectBest [⟨"Q", "S1", 95, 150, 1, 150, none⟩, ⟨"Q", "S2", 99, 150, 1, 280, none⟩] =
      some ⟨"Q", "S2", 99, 150, 1, 280, none⟩ ∧
    selectBest [⟨"Q", "S2", 99, 150, 1, 280, none⟩, ⟨"Q", "S1", 99, 150, 1, 280, none⟩] =
      some ⟨"Q", "S1", 99, 150, 1, 280, none⟩ ∧
    keepBestPerQuery [⟨"Q", "S2", 99, 150, 1, 280, none⟩, ⟨"Q", "S1", 95, 150, 1, 150, none⟩] =
      [⟨"Q", "S2", 99, 150, 1, 280, none⟩] := by
  have t1 := tie_break_law ⟨"Q", "S2", 99, 150, 1, 280, none⟩ ⟨"Q", "S1", 95, 150, 1, 150, none⟩
    [] [] "Q" rfl (Or.inl (by decide))
  have t2 := tie_break_law ⟨"Q", "S1", 99, 150, 1, 280, none⟩ ⟨"Q", "S2", 99, 150, 1, 280, none⟩
    [] [] "Q" rfl (Or.inr ⟨rfl, by rw [String.lt_iff_toList_lt]; decide⟩)
  exact ⟨by decide, t1.2.2.1, t1.2.2.2.1, t2.2.2.2.1, (t1.2.2.2.2.2.2.2.2 rfl).1⟩

/-- C1: for every input grouped hit set and every strategy, the output
contains exactly one Assignment per entry of the grouped input, in input
order; a query whose hit list is empty after filtering still receives an
unassigned Assignment (null taxonomy, confidence 0, zero supporting
hits) rather than an error or a missing row. -/
theorem coverage_completeness (m : Method) (th : TaxThresholds)
    (hbq : List (String × List (HitRecord × Lineage))) :
    (assignAll m th hbq).map Assignment.query_id = hbq.map Prod.fst ∧
    (∀ x : String, (assignAll m th hbq).countP (fun a => a.query_id == x) =
      hbq.countP (fun p => p.1 == x)) ∧
    (∀ q : String, (q, ([] : List (HitRecord × Lineage))) ∈ hbq →
      unassigned q m ∈ assignAll m th hbq) ∧
    ((hbq.map Prod.fst).Nodup → ((assignAll m th hbq).map Assignment.query_id).Nodup) := by
  have hpoint : ∀ p : String × List (HitRecord × Lineage),
      (scoreAssign (assignQuery m th p.1 p.2)).query_id = p.1 := by
    intro p
    rw [scoreAssign_query_id, assignQuery_query_id]
  have hmap : (assignAll m th hbq).map Assignment.query_id = hbq.map Prod.fst := by
    simp only [assignAll, List.map_map]
    exact List.map_congr_left (fun p _ => hpoint p)
  refine ⟨hmap, ?_, ?_, ?_⟩
  · intro x
    have h1 := congrArg (List.countP (fun s => s == x)) hmap
    rw [List.countP_map, List.countP_map] at h1
    simpa [Function.comp] using h1
  · intro q hq
    have hin := List.mem_map_of_mem
      (fun p : String × List (HitRecord × Lineage) =>
        scoreAssign (assignQuery m th p.1 p.2)) hq
    simpa only [assignAll, assignQuery_empty, scoreAssign_unassigned] using hin
  · intro h
    rw [hmap]
    exact h

theorem coverage_completeness_witness :
    (("Q2", ([] : List (HitRecord × Lineage))) ∈
      [("Q1", [((⟨"Q1", "S1", 99, 150, 1, 280, none⟩ : HitRecord),
        (["Bacteria"] : Lineage))]), ("Q2", [])]) ∧
    unassigned "Q2" Method.bestHit ∈
      assignAll Method.bestHit ⟨70, 50, 1, some 50, 5, 6 / 10, 6 / 10⟩
        [("Q1", [((⟨"Q1", "S1", 99, 150, 1, 280, none⟩ : HitRecord),
          (["Bacteria"] : Lineage))]), ("Q2", [])] ∧
    (assignAll Method.bestHit ⟨70, 50, 1, some 50, 5, 6 / 10, 6 / 10⟩
        [("Q1", [((⟨"Q1", "S1", 99, 150, 1, 280, none⟩ : HitRecord),
          (["Bacteria"] : Lineage))]), ("Q2", [])]).map Assignment.query_id =
      ["Q1", "Q2"] := by
  have hc := coverage_completeness Method.bestHit ⟨70, 50, 1, some 50, 5, 6 / 10, 6 / 10⟩
    [("Q1", [((⟨"Q1", "S1", 99, 150, 1, 280, none⟩ : HitRecord),
      (["Bacteria"] : Lineage))]), ("Q2", [])]
  refine ⟨by decide, hc.2.2.1 "Q2" (by decide), ?_⟩
  rw [hc.1]
  decide

end Ionspid
